import Mathlib

/-!
Verification of the tape generator (`generate.py`) and tape viewer
(`view.py`): a binary file of little-endian 32-bit unsigned integers.
Definitions are shallow embeddings of the two scripts; bytes are
modelled as natural numbers (each byte a `Nat`, values `< 256` on the
encoding side by construction).
-/

namespace Tape

/-- `int.from_bytes(chunk, 'little')`: little-endian interpretation of a
byte string of any length (the empty string decodes to 0). -/
def fromBytesLE : List Nat → Nat
  | [] => 0
  | b :: bs => b + 256 * fromBytesLE bs

/-- The digit-extraction loop underlying `v.to_bytes(n, 'little')`:
`n` little-endian base-256 digits of `v`. -/
def toBytesLE : Nat → Nat → List Nat
  | 0, _ => []
  | n + 1, v => (v % 256) :: toBytesLE n (v / 256)

/-- `v.to_bytes(4, 'little')` (generate.py line 14): four little-endian
bytes, or `none` for the `OverflowError` raised when `v ≥ 2^32`. -/
def to_bytes4 (v : Nat) : Option (List Nat) :=
  if v < 2 ^ 32 then some (toBytesLE 4 v) else none

/-- The viewer's read loop (view.py lines 12-17): repeatedly take a chunk
of up to 4 bytes; stop only when the chunk is empty; otherwise decode the
chunk little-endian and append it to the list. -/
def readTape : List Nat → List Nat
  | [] => []
  | [a] => [fromBytesLE [a]]
  | [a, b] => [fromBytesLE [a, b]]
  | [a, b, c] => [fromBytesLE [a, b, c]]
  | a :: b :: c :: d :: rest => fromBytesLE [a, b, c, d] :: readTape rest

/-- `sorted(lst)` from view.py line 20: Python's ascending stable sort,
modelled as insertion sort on `≤`. -/
def pySorted (lst : List Nat) : List Nat :=
  List.insertionSort (· ≤ ·) lst

/-- The verification line printed by view.py line 20:
`"Tape is " + ("NOT " if lst != sorted(lst) else "") + "sorted."`. -/
def sortedLine (lst : List Nat) : String :=
  "Tape is " ++ (if lst ≠ pySorted lst then "NOT " else "") ++ "sorted."

/-- `lst[:10]` from view.py line 18: the first-10 window of the summary. -/
def firstWindow (lst : List Nat) : List Nat :=
  lst.take 10

/-- `lst[-10:]` from view.py line 18: the last-10 window of the summary
(Python clamps the negative start index at 0, which truncated `Nat`
subtraction models exactly). -/
def lastWindow (lst : List Nat) : List Nat :=
  lst.drop (lst.length - 10)

/-- `random.randint(1, 1000)` (generate.py line 14), modelled over an
abstract stream `r` of pseudo-random naturals: the `i`-th sample is
reduced into the inclusive range `[1, 1000]`. -/
def randint1000 (r : Nat → Nat) (i : Nat) : Nat :=
  r i % 1000 + 1

/-- The generator's write loop body iterated `n` more times starting at
iteration `i` (generate.py lines 12-14): each iteration encodes one
sample with `to_bytes4` and appends the 4 bytes to the output file;
`none` propagates a conversion failure. -/
def writeLoop (r : Nat → Nat) (i : Nat) : Nat → Option (List Nat)
  | 0 => some []
  | n + 1 => do
      let chunk ← to_bytes4 (randint1000 r i)
      let rest ← writeLoop r (i + 1) n
      pure (chunk ++ rest)

/-- The generator's output file contents for a command-line `count`
(generate.py lines 11-14): `range(count)` iterates `max count 0` times,
so the loop runs `count.toNat` times. -/
def generateOutput (r : Nat → Nat) (count : Int) : Option (List Nat) :=
  writeLoop r 0 count.toNat

theorem toBytesLE_length : ∀ n v, (toBytesLE n v).length = n
  | 0, _ => rfl
  | n + 1, v => by simp [toBytesLE, toBytesLE_length n]

theorem fromBytes_toBytes : ∀ n v, v < 2 ^ (8 * n) → fromBytesLE (toBytesLE n v) = v
  | 0, v, h => by
      simp only [toBytesLE, fromBytesLE]
      omega
  | n + 1, v, h => by
      have hdiv : v / 256 < 2 ^ (8 * n) := by
        rw [Nat.div_lt_iff_lt_mul (by norm_num)]
        calc v < 2 ^ (8 * (n + 1)) := h
          _ = 2 ^ (8 * n) * 256 := by rw [Nat.mul_succ, pow_add]; norm_num
      simp only [toBytesLE, fromBytesLE]
      rw [fromBytes_toBytes n (v / 256) hdiv]
      omega

theorem readTape_chunk (v : Nat) (rest : List Nat) (h : v < 2 ^ 32) :
    readTape (toBytesLE 4 v ++ rest) = v :: readTape rest := by
  have h4 : toBytesLE 4 v
      = [v % 256, v / 256 % 256, v / 256 / 256 % 256, v / 256 / 256 / 256 % 256] := rfl
  have hv : fromBytesLE (toBytesLE 4 v) = v :=
    fromBytes_toBytes 4 v (by norm_num at h ⊢; exact h)
  rw [h4] at hv ⊢
  simpa [readTape] using hv

theorem readTape_length (bs : List Nat) : (readTape bs).length = (bs.length + 3) / 4 := by
  induction bs using readTape.induct
  all_goals simp [readTape, *]
  all_goals omega

theorem readTape_ne_nil (bs : List Nat) (h : bs ≠ []) : readTape bs ≠ [] := by
  intro hc
  have hl := readTape_length bs
  rw [hc] at hl
  have : 0 < bs.length := List.length_pos.mpr h
  simp at hl
  omega

theorem readTape_getLast (bs : List Nat) (h : bs.length % 4 ≠ 0) :
    (readTape bs).getLast? = some (fromBytesLE (bs.drop (4 * (bs.length / 4)))) := by
  induction bs using readTape.induct with
  | case1 => simp at h
  | case2 a => simp [readTape]
  | case3 a b => simp [readTape]
  | case4 a b c => simp [readTape]
  | case5 a b c d rest ih =>
    have hrest : rest.length % 4 ≠ 0 := by
      simp only [List.length_cons] at h
      omega
    have hne : rest ≠ [] := by
      intro hc
      rw [hc] at hrest
      simp at hrest
    simp only [readTape]
    cases hrt : readTape rest with
    | nil => exact absurd hrt (readTape_ne_nil rest hne)
    | cons y ys =>
      rw [List.getLast?_cons_cons, ← hrt, ih hrest]
      have hidx : 4 * ((a :: b :: c :: d :: rest).length / 4)
          = 4 + 4 * (rest.length / 4) := by
        simp only [List.length_cons]
        omega
      rw [hidx, ← List.drop_drop]
      rfl

theorem pySorted_eq_iff (lst : List Nat) :
    lst = pySorted lst ↔ List.Sorted (· ≤ ·) lst := by
  constructor
  · intro h
    rw [h]
    exact List.sorted_insertionSort _ lst
  · intro h
    exact (h.insertionSort_eq).symm

theorem sortedLine_eq_iff (lst : List Nat) :
    sortedLine lst = "Tape is sorted." ↔ lst = pySorted lst := by
  by_cases h : lst = pySorted lst
  · rw [sortedLine, if_neg (not_not_intro h)]
    constructor
    · intro _
      exact h
    · intro _
      decide
  · rw [sortedLine, if_pos h]
    constructor
    · intro hc
      exact absurd hc (by decide)
    · intro hc
      exact absurd hc h

theorem randint1000_le (r : Nat → Nat) (i : Nat) :
    1 ≤ randint1000 r i ∧ randint1000 r i ≤ 1000 := by
  unfold randint1000
  have := Nat.mod_lt (r i) (show 0 < 1000 by norm_num)
  omega

theorem randint1000_lt_pow32 (r : Nat → Nat) (i : Nat) : randint1000 r i < 2 ^ 32 :=
  lt_of_le_of_lt (randint1000_le r i).2 (by norm_num)

theorem to_bytes4_randint (r : Nat → Nat) (i : Nat) :
    to_bytes4 (randint1000 r i) = some (toBytesLE 4 (randint1000 r i)) := by
  unfold to_bytes4
  rw [if_pos (randint1000_lt_pow32 r i)]

theorem writeLoop_eq (r : Nat → Nat) (i n : Nat) :
    ∃ bs, writeLoop r i (n + 1) = some (toBytesLE 4 (randint1000 r i) ++ bs)
      ∧ writeLoop r (i + 1) n = some bs := by
  cases hw : writeLoop r (i + 1) n with
  | none =>
    exfalso
    induction n generalizing i with
    | zero => simp [writeLoop] at hw
    | succ m ih =>
      simp only [writeLoop, to_bytes4_randint, Option.bind_eq_bind,
        Option.some_bind] at hw
      cases hm : writeLoop r (i + 1 + 1) m with
      | none => exact ih (i + 1) hm
      | some bs => simp [hm] at hw
  | some bs =>
    refine ⟨bs, ?_, rfl⟩
    simp [writeLoop, to_bytes4_randint, hw]

theorem writeLoop_length (r : Nat → Nat) (i n : Nat) :
    ∃ bs, writeLoop r i n = some bs ∧ bs.length = 4 * n := by
  induction n generalizing i with
  | zero => exact ⟨[], rfl, rfl⟩
  | succ m ih =>
    obtain ⟨bs, hbs, hlen⟩ := ih (i + 1)
    obtain ⟨bs2, hw, hw2⟩ := writeLoop_eq r i m
    rw [hw2] at hbs
    cases hbs
    refine ⟨toBytesLE 4 (randint1000 r i) ++ bs, hw, ?_⟩
    simp [toBytesLE_length, hlen]
    omega

theorem writeLoop_values (r : Nat → Nat) (i n : Nat) (bs : List Nat)
    (h : writeLoop r i n = some bs) :
    ∀ v ∈ readTape bs, 1 ≤ v ∧ v ≤ 1000 := by
  induction n generalizing i bs with
  | zero =>
    simp only [writeLoop] at h
    cases h
    simp [readTape]
  | succ m ih =>
    obtain ⟨rest, hw, hw2⟩ := writeLoop_eq r i m
    rw [h] at hw
    cases hw
    rw [readTape_chunk _ _ (randint1000_lt_pow32 r i)]
    intro v hv
    rcases List.mem_cons.mp hv with hv | hv
    · rw [hv]
      exact randint1000_le r i
    · exact ih (i + 1) rest hw2 v hv

/-- C1 counterexample: a 1-byte file `[7]` refutes the claim that a trailing
short chunk is discarded: the viewer decodes it, yielding the sequence `[7]`
with count 1, not the claimed floor(1 / 4) = 0. -/
theorem c1_trailing_chunk_is_decoded :
    readTape [7] = [7] ∧ (readTape [7]).length ≠ 1 / 4 := by
  decide

/-- C1 (amended): for every input file whose byte length is not a multiple
of 4, the read loop decodes the trailing 1-3 byte chunk as well (only an
empty read terminates the loop), appending its little-endian value as the
last element; the count is floor(file_size / 4) + 1. -/
theorem c1_partial_chunk_decoded (bs : List Nat) (h : bs.length % 4 ≠ 0) :
    (readTape bs).length = bs.length / 4 + 1
      ∧ (readTape bs).getLast? = some (fromBytesLE (bs.drop (4 * (bs.length / 4)))) := by
  refine ⟨?_, readTape_getLast bs h⟩
  rw [readTape_length]
  omega

/-- C1 witness: the amended statement at the concrete 1-byte file `[7]`. -/
theorem c1_partial_chunk_decoded_witness :
    [(7 : Nat)].length % 4 ≠ 0
      ∧ ((readTape [7]).length = [(7 : Nat)].length / 4 + 1
        ∧ (readTape [7]).getLast?
          = some (fromBytesLE (List.drop (4 * ([(7 : Nat)].length / 4)) [7]))) :=
  ⟨by decide, c1_partial_chunk_decoded [7] (by decide)⟩

/-- C2: encoding each element of a sequence of unsigned 32-bit integers as
4 little-endian bytes in order and decoding the concatenation with the
viewer's read loop yields the original sequence, in order. -/
theorem c2_tape_roundtrip (vs : List Nat) (h : ∀ v ∈ vs, v < 2 ^ 32) :
    readTape (List.flatten (vs.map (toBytesLE 4))) = vs := by
  induction vs with
  | nil => rfl
  | cons v rest ih =>
    simp only [List.map_cons, List.flatten_cons]
    rw [readTape_chunk v _ (h v (List.mem_cons_self v rest))]
    rw [ih (fun x hx => h x (List.mem_cons_of_mem v hx))]

/-- C2 witness: round-trip of the concrete sequence `[3, 1, 2]`. -/
theorem c2_tape_roundtrip_witness :
    (∀ v ∈ [3, 1, 2], v < 2 ^ 32)
      ∧ readTape (List.flatten ([3, 1, 2].map (toBytesLE 4))) = [3, 1, 2] :=
  ⟨by decide, c2_tape_roundtrip [3, 1, 2] (by decide)⟩

/-- C3: with verification enabled the viewer prints "is sorted" (without
"NOT") exactly when the sequence equals its own ascending sort, i.e. exactly
when it is non-decreasing; `[3, 1, 2]` is reported NOT sorted and `[1, 2, 3]`
is reported sorted. -/
theorem c3_sorted_verdict :
    (∀ lst : List Nat,
      (sortedLine lst = "Tape is sorted." ↔ lst = pySorted lst)
        ∧ (sortedLine lst = "Tape is sorted." ↔ List.Sorted (· ≤ ·) lst))
      ∧ sortedLine [3, 1, 2] = "Tape is NOT sorted."
      ∧ sortedLine [1, 2, 3] = "Tape is sorted." := by
  refine ⟨fun lst => ⟨sortedLine_eq_iff lst, ?_⟩, by decide, by decide⟩
  exact (sortedLine_eq_iff lst).trans (pySorted_eq_iff lst)

/-- C4: for every count ≥ 0 the generator writes a file of exactly
4 * count bytes (count iterations of one 4-byte write each). -/
theorem c4_generator_file_size (r : Nat → Nat) (count : Int) (h : 0 ≤ count) :
    ∃ bs, generateOutput r count = some bs ∧ (bs.length : Int) = 4 * count := by
  obtain ⟨bs, h1, h2⟩ := writeLoop_length r 0 count.toNat
  refine ⟨bs, h1, ?_⟩
  rw [h2]
  push_cast
  rw [Int.toNat_of_nonneg h]

/-- C4 witness: with the identity stream and count 2 the generator
produces an 8-byte file. -/
theorem c4_generator_file_size_witness :
    (0 : Int) ≤ 2
      ∧ ∃ bs, generateOutput id 2 = some bs ∧ (bs.length : Int) = 4 * 2 :=
  ⟨by decide, c4_generator_file_size id 2 (by decide)⟩

/-- C5: every 4-byte group of a generated file decodes to a value in the
inclusive range [1, 1000]. -/
theorem c5_generated_values_in_range (r : Nat → Nat) (count : Int) (bs : List Nat)
    (h : generateOutput r count = some bs) :
    ∀ v ∈ readTape bs, 1 ≤ v ∧ v ≤ 1000 :=
  writeLoop_values r 0 count.toNat bs h

/-- C5 witness: with the identity stream and count 1 the generated file is
`[1, 0, 0, 0]`, and its decoded value 1 is in range. -/
theorem c5_generated_values_in_range_witness : 1 ≤ 1 ∧ 1 ≤ 1000 :=
  c5_generated_values_in_range id 1 [1, 0, 0, 0] (by decide) 1 (by decide)

/-- C6: an empty file yields an empty decoded sequence, a reported count of
0, and the verdict "Tape is sorted.". -/
theorem c6_empty_file :
    readTape [] = [] ∧ (readTape []).length = 0
      ∧ sortedLine (readTape []) = "Tape is sorted." := by
  decide

/-- C7: for a decoded sequence of fewer than 10 elements, both the
first-10 and last-10 windows of the summary line are exactly the whole
sequence. -/
theorem c7_short_tape_windows (lst : List Nat) (h : lst.length < 10) :
    firstWindow lst = lst ∧ lastWindow lst = lst := by
  constructor
  · exact List.take_of_length_le (by omega)
  · unfold lastWindow
    rw [show lst.length - 10 = 0 from by omega, List.drop_zero]

/-- C7 witness: for the 3-element tape `[3, 1, 2]` both windows show all
3 elements. -/
theorem c7_short_tape_windows_witness :
    [(3 : Nat), 1, 2].length < 10
      ∧ (firstWindow [3, 1, 2] = [3, 1, 2] ∧ lastWindow [3, 1, 2] = [3, 1, 2]) :=
  ⟨by decide, c7_short_tape_windows [3, 1, 2] (by decide)⟩

/-- C8: for every count ≤ 0 the generator's loop runs zero iterations and
the output file is created empty. -/
theorem c8_nonpositive_count_empty (r : Nat → Nat) (count : Int) (h : count ≤ 0) :
    generateOutput r count = some [] := by
  unfold generateOutput
  rw [Int.toNat_of_nonpos h]
  rfl

/-- C8 witness: count -3 produces an empty file. -/
theorem c8_nonpositive_count_empty_witness :
    (-3 : Int) ≤ 0 ∧ generateOutput id (-3) = some [] :=
  ⟨by decide, c8_nonpositive_count_empty id (-3) (by decide)⟩

/-- C9: the sortedness check is deterministic: evaluating the verdict twice
over the same decoded input yields the same verdict both times. -/
theorem c9_verdict_deterministic (bs : List Nat) :
    sortedLine (readTape bs) = sortedLine (readTape bs) :=
  rfl

/-- C10: the 4-byte encoding of a sampled value never fails: every sample
lies in [1, 1000], hence below 2^32, so `to_bytes` takes its success branch
and each iteration writes exactly 4 bytes. -/
theorem c10_encode_never_fails (r : Nat → Nat) (i : Nat) :
    (1 ≤ randint1000 r i ∧ randint1000 r i ≤ 1000)
      ∧ to_bytes4 (randint1000 r i) = some (toBytesLE 4 (randint1000 r i))
      ∧ (toBytesLE 4 (randint1000 r i)).length = 4 :=
  ⟨randint1000_le r i, to_bytes4_randint r i, toBytesLE_length 4 _⟩

end Tape
